import Mathlib

/-!
Shallow embedding of the postgres schema-introspection adapter
(`src/loaders/postgres.go`, Go package `loaders`).

Modelling conventions:
- native type strings are handled as `String` at the interface and as
  `List Char` where the Go code walks bytes; all inputs of interest are
  ASCII, where byte indices and character indices coincide;
- Go machine integers are modelled as `Int`/`Nat` (no operation here is
  anywhere near overflow on the inputs the claims concern; `strconv.Atoi`
  range errors are noted where relevant);
- fallible operations return `Except String`; a Go `panic` is modelled as
  `Option.none`;
- database calls are not performed: each loader function takes the rows a
  catalog call would have produced (or an oracle producing them) as an
  explicit argument.
-/

namespace Loaders

/-- Decidable equality for `Except`, so that concrete runs of the fallible
loaders can be checked by `decide`. -/
instance {ε α : Type} [DecidableEq ε] [DecidableEq α] : DecidableEq (Except ε α) := by
  intro a b
  cases a <;> cases b
  case error.error e f =>
    exact decidable_of_iff (e = f) ⟨fun h => by rw [h], fun h => by injection h⟩
  case error.ok e x => exact isFalse (fun h => by injection h)
  case ok.error x e => exact isFalse (fun h => by injection h)
  case ok.ok x y =>
    exact decidable_of_iff (x = y) ⟨fun h => by rw [h], fun h => by injection h⟩

/-- Decimal value of a run of ASCII digit characters (most significant first). -/
def digitsVal (ds : List Char) : Nat :=
  ds.foldl (fun n c => 10 * n + (c.toNat - 48)) 0

/-- Modelled from the spec: `ArgType.ParsePrecision` lives in the repository's
`internal` package, which is not under `src/`.  Spec §4.1 step 3: "Extract a
numeric precision/scale annotation if present in the type string (e.g. a
parenthesized qualifier), yielding a base type name and an integer precision
(0 if absent)"; the qualifier's leading integer is the precision. -/
def ParsePrecision (l : List Char) : List Char × Nat :=
  let base := l.takeWhile (fun c => c != '(')
  match l.dropWhile (fun c => c != '(') with
  | '(' :: qual =>
    let ds := qual.takeWhile Char.isDigit
    if ds.isEmpty then (l, 0) else (base, digitsVal ds)
  | _ => (l, 0)

/-- Split a character list at every character satisfying `p`, keeping empty
segments. -/
def splitBy (p : Char → Bool) : List Char → List (List Char)
  | [] => [[]]
  | c :: rest =>
    if p c then [] :: splitBy p rest
    else
      match splitBy p rest with
      | t :: ts => (c :: t) :: ts
      | [] => [[c]]

/-- Split a character list on every occurrence of a separator character,
keeping empty segments — the semantics of Go `strings.Split` with a
single-character separator. -/
def splitOnChar (sep : Char) : List Char → List (List Char) :=
  splitBy (fun c => c = sep)

/-- Capitalize the first character of a segment (helper for the identifier
casing model below). -/
def capFirst (l : List Char) : List Char :=
  match l with
  | [] => []
  | c :: rest => c.toUpper :: rest

/-- Modelled from the spec: the external `snaker` library's
`SnakeToCamelIdentifier` (spec §4.1 step 5, "identifier-casing transformation
of the raw name").  No claim depends on its exact output; it only has to be a
deterministic function of the type name. -/
def snakeToCamelIdentifier (s : String) : String :=
  String.mk (((splitOnChar '_' s.toList).map capFirst).foldl (fun a b => a ++ b) [])

/-- Embeds `nonSliceDt` (src/loaders/postgres.go:81-152): the fixed scalar
family table, with the user-defined-type default branch. -/
def nonSliceDt (dt : String) : String × String :=
  match dt with
  | "boolean" => ("pgtype.Bool\x7b\x7d", "pgtype.Bool")
  | "character" | "character varying" | "text" | "money" | "inet" =>
      ("pgtype.Text\x7b\x7d", "pgtype.Text")
  | "smallint" | "smallserial" => ("pgtype.Int2\x7b\x7d", "pgtype.Int2")
  | "integer" | "serial" => ("pgtype.Int4\x7b\x7d", "pgtype.Int4")
  | "bigint" | "bigserial" => ("pgtype.Int8\x7b\x7d", "pgtype.Int8")
  | "real" => ("pgtype.Float4\x7b\x7d", "pgtype.Float4")
  | "numeric" | "double precision" => ("pgtype.Float8\x7b\x7d", "pgtype.Float8")
  | "bytea" => ("pgtype.Bytea\x7b\x7d", "pgtype.Bytea")
  | "jsonb" => ("pgtype.JSONB\x7b\x7d", "pgtype.JSONB")
  | "date" => ("pgtype.Date\x7b\x7d", "pgtype.Date")
  | "timestamp with time zone" | "time with time zone" =>
      ("pgtype.Timestamp\x7b\x7d", "pgtype.Timestamp")
  | "time without time zone" | "timestamp without time zone" =>
      ("pgtype.Timestamptz\x7b\x7d", "pgtype.Timestamptz")
  | "interval" => ("pgtype.Interval\x7b\x7d", "pgtype.Interval")
  | "\"char\"" => ("pgtype.QChar\x7b\x7d", "pgtype.QChar")
  | "bit" => ("pgtype.Bit\x7b\x7d", "pgtype.Bit")
  | "uuid" => ("pgtype.UUID\x7b\x7d", "pgtype.UUID")
  | other =>
      let typ := snakeToCamelIdentifier other
      (typ ++ "\x7b\x7d", typ)

/-- Embeds `sliceDt` (src/loaders/postgres.go:154-165): array lookup; only
`uuid` has a dedicated array representation, every other base type is wrapped
as a Go slice of the raw native base name. -/
def sliceDt (dt : String) : String × String :=
  match dt with
  | "uuid" => ("pgtype.UUIDArray\x7b\x7d", "pgtype.UUIDArray")
  | _ => ("[]" ++ dt ++ "\x7b\x7d", "[]" ++ dt)

/-- The six characters of the set-returning marker `"SETOF "`. -/
def setofMarker : List Char := ['S', 'E', 'T', 'O', 'F', ' ']

/-- Embeds the non-`SETOF` part of `PgParseType`
(src/loaders/postgres.go:65-78): strip a trailing `[]`, extract precision,
then look the base name up in the scalar or array family table.  The
`nullable` parameter is present in the source signature but never read. -/
def PgParseTypeCore (l : List Char) (nullable : Bool) : Nat × String × String :=
  let asSlice := ['[', ']'].isSuffixOf l
  let l1 := if asSlice then l.take (l.length - 2) else l
  let pp := ParsePrecision l1
  let p := if asSlice then sliceDt (String.mk pp.1) else nonSliceDt (String.mk pp.1)
  (pp.2, p.1, p.2)

/-- Embeds `PgParseType` (src/loaders/postgres.go:53-79) on character lists:
the `SETOF ` prefix recurses on the remainder with nullability forced false
and wraps the inner type name as a slice. -/
def PgParseTypeAux : List Char → Bool → Nat × String × String
  | 'S' :: 'E' :: 'T' :: 'O' :: 'F' :: ' ' :: rest, _ =>
      (0, "nil", "[]" ++ (PgParseTypeAux rest false).2.2)
  | l, nullable => PgParseTypeCore l nullable

/-- Embeds `PgParseType` (src/loaders/postgres.go:53-79): translate a native
postgres type string into (precision, zero value, Go type name). -/
def PgParseType (dt : String) (nullable : Bool) : Nat × String × String :=
  PgParseTypeAux dt.toList nullable

/-- `internal.RelType`.  Modelled from the spec: the `internal` package is not
under `src/`.  The spec declares RelationKind an enumeration {Table, View};
in the source language it is an integer-backed open enum, so it is modelled
as a natural number with `Table` and `View` as its two declared values. -/
abbrev RelType := Nat

/-- The declared `Table` relation kind. -/
def RelType.Table : RelType := 0

/-- The declared `View` relation kind. -/
def RelType.View : RelType := 1

/-- Embeds `PgRelkind` (src/loaders/postgres.go:38-49).  The `default: panic`
branch is modelled as `none`. -/
def PgRelkind (relType : RelType) : Option String :=
  if relType = RelType.Table then some "r"
  else if relType = RelType.View then some "v"
  else none

/-! ### Query text normalizer (`PgQueryStrip`, src/loaders/postgres.go:167-183)

`pgQueryStripRE` is the Go regular expression
`(?i)::[a-z][a-z0-9_\.]+\s+AS\s+[a-z][a-z0-9_\.]+`.  It is hand-compiled here
into a deterministic matcher; this is faithful because every quantified
subexpression is followed by a character class disjoint from its own
(identifier characters vs whitespace vs the `AS` keyword letters), so greedy
maximal munch coincides with the backtracking semantics of the engine.  The
`(?i)` flag case-folds the classes; RE2 folding adds the two non-ASCII fold
partners U+017F (of `s`) and U+212A (of `k`), included below for exactness.
`\s` in RE2 is exactly the five characters tab, newline, form feed, carriage
return, space. -/

/-- RE2 `\s`. -/
def isWS (c : Char) : Bool :=
  c = ' ' || c = '\t' || c = '\n' || c = '\x0c' || c = '\r'

/-- `(?i)[a-z]`: ASCII letters plus the two RE2 case-folding partners. -/
def foldAZ (c : Char) : Bool :=
  ('a' ≤ c && c ≤ 'z') || ('A' ≤ c && c ≤ 'Z') || c = 'ſ' || c = 'K'

/-- `(?i)[a-z0-9_\.]`. -/
def isIdentChar (c : Char) : Bool :=
  foldAZ c || c.isDigit || c = '_' || c = '.'

/-- Length of the (unique, greedy) match of `pgQueryStripRE` starting at the
head of `l`, if any. -/
def matchCastAt (l : List Char) : Option Nat :=
  match l with
  | ':' :: ':' :: r1 =>
    match r1 with
    | c :: r2 =>
      if foldAZ c then
        let id1 := r2.takeWhile isIdentChar
        if id1.length = 0 then none else
        let r3 := r2.drop id1.length
        let ws1 := r3.takeWhile isWS
        if ws1.length = 0 then none else
        let r4 := r3.drop ws1.length
        match r4 with
        | a :: s :: r5 =>
          if (a = 'A' || a = 'a') && (s = 'S' || s = 's' || s = 'ſ') then
            let ws2 := r5.takeWhile isWS
            if ws2.length = 0 then none else
            let r6 := r5.drop ws2.length
            match r6 with
            | d :: r7 =>
              if foldAZ d then
                let id2 := r7.takeWhile isIdentChar
                if id2.length = 0 then none
                else some (3 + id1.length + ws1.length + 2 + ws2.length + 1 + id2.length)
              else none
            | [] => none
          else none
        | _ => none
      else none
    | [] => none
  | _ => none

/-- `pgQueryStripRE.FindStringIndex`: the leftmost match of the pattern, as a
half-open interval of character positions. -/
def findCast : List Char → Option (Nat × Nat)
  | [] => none
  | l@(_ :: rest) =>
    match matchCastAt l with
    | some n => some (0, n)
    | none =>
      match findCast rest with
      | some (s, e) => some (s + 1, e + 1)
      | none => none

/-- The per-line body of `PgQueryStrip` (src/loaders/postgres.go:173-183):
remove the first match of the pattern from the line and return
(new line, removed span); a line with no match is returned unchanged with an
empty comment. -/
def stripLine (l : List Char) : List Char × List Char :=
  match findCast l with
  | some (s, e) => (l.take s ++ l.drop e, (l.drop s).take (e - s))
  | none => (l, [])

/-- Embeds `PgQueryStrip` (src/loaders/postgres.go:172-183).  The Go function
mutates `query` in place and writes `queryComments[i+1]` for each line `i`
(slot 0 is never touched); the model returns the new lines paired with the
comments written at slots 1 through n. -/
def PgQueryStrip (query : List String) : List String × List String :=
  (query.map (fun q => String.mk (stripLine q.toList).1),
   query.map (fun q => String.mk (stripLine q.toList).2))


/-! ### Table enumerator (`PgTables`, src/loaders/postgres.go:185-221) -/

/-- `models.Table` (fields used by src/loaders/postgres.go): name, relkind
code, and the derived manual-primary-key flag.  The raw rows returned by the
catalog share this shape; their `manualPk` field is not consulted. -/
structure Table where
  tableName : String
  typ : String
  manualPk : Bool
deriving DecidableEq

/-- `models.Sequence` (field used by src/loaders/postgres.go): the name of
the table the sequence is associated with. -/
structure Sequence where
  tableName : String
deriving DecidableEq

/-- Embeds `PgTables` (src/loaders/postgres.go:187-221).  The two catalog
fetches are passed in as their results: `rowsRes` is the raw relation
listing, `seqRes` the sequence listing.  A failed sequence fetch is replaced
by the empty set; a failed relation fetch fails the call.  The per-row flag
is computed by the source's loop: start from `true`, overwrite with `false`
on every sequence whose table name equals the row's name. -/
def PgTables (rowsRes : Except String (List Table))
    (seqRes : Except String (List Sequence)) : Except String (List Table) :=
  match rowsRes with
  | .error e => .error e
  | .ok rows =>
    let sequences := match seqRes with
      | .error _ => ([] : List Sequence)
      | .ok s => s
    .ok (rows.map (fun row =>
      { tableName := row.tableName
        typ := row.typ
        manualPk := sequences.foldl
          (fun manualPk sequence =>
            if sequence.tableName = row.tableName then false else manualPk)
          true }))

/-! ### Ad-hoc query shape discoverer (`PgQueryColumns`,
src/loaders/postgres.go:223-252)

The database handle is modelled as an oracle record; `internal.GenRandomID`
(repository code outside `src/`) is modelled as the `randomID` argument. -/

/-- `models.Column` (opaque to this component: it is produced and returned by
the delegated column listing). -/
structure Column where
  columnName : String
deriving DecidableEq

/-- The three database operations `PgQueryColumns` performs, as oracles:
`exec` runs a statement, `queryRowScan` runs a query with one parameter and
scans one row into a string, `pgTableColumns` is `models.PgTableColumns`
applied to (schema, relation name). -/
structure QCOracle where
  exec : String → Except String Unit
  queryRowScan : String → String → Except String String
  pgTableColumns : String → String → Except String (List Column)

/-- The generated transient relation name (src/loaders/postgres.go:228). -/
def xoidOf (randomID : String) : String := "_xo_" ++ randomID

/-- The temporary-view statement (src/loaders/postgres.go:229). -/
def viewqOf (xoid : String) (inspect : List String) : String :=
  "CREATE TEMPORARY VIEW " ++ xoid ++ " AS (" ++ String.intercalate "\n" inspect ++ ")"

/-- The namespace-lookup query (src/loaders/postgres.go:237-240). -/
def nspq : String :=
  "SELECT n.nspname FROM pg_class c JOIN pg_namespace n ON n.oid = c.relnamespace " ++
  "WHERE n.nspname LIKE \x27pg_temp%\x27 AND c.relname = $1"

/-- Embeds `PgQueryColumns` (src/loaders/postgres.go:224-252): define the
temporary view, look up the namespace it landed in, delegate to the column
listing.  Each `err != nil` check returns the underlying error unchanged. -/
def PgQueryColumns (db : QCOracle) (randomID : String) (inspect : List String) :
    Except String (List Column) :=
  let xoid := xoidOf randomID
  match db.exec (viewqOf xoid inspect) with
  | .error e => .error e
  | .ok _ =>
    match db.queryRowScan nspq xoid with
    | .error e => .error e
    | .ok schema => db.pgTableColumns schema xoid

/-! ### Index column orderer (`PgIndexColumns`, src/loaders/postgres.go:254-304) -/

/-- `models.IndexColumn` (fields used by src/loaders/postgres.go): the column
identifier used as the join key, and the column name. -/
structure IndexColumn where
  cid : Int
  columnName : String
deriving DecidableEq

/-- Go `strconv.Atoi`: an optional sign followed by a nonempty digit run,
nothing else.  (Go additionally fails on 64-bit overflow; the model uses
unbounded integers, which only enlarges the success set.) -/
def atoi (l : List Char) : Option Int :=
  let ds := if l.head? = some '-' ∨ l.head? = some '+' then l.tail else l
  if ds.isEmpty then none
  else if ds.all Char.isDigit then
    some (if l.head? = some '-' then -(digitsVal ds : Int) else (digitsVal ds : Int))
  else none

/-- The error text of src/loaders/postgres.go:281. -/
def errCouldNotConvert (s table index v : String) : String :=
  "could not convert " ++ s ++ table ++ " index " ++ index ++ " column " ++ v ++ " to int"

/-- The error text of src/loaders/postgres.go:297. -/
def errCouldNotFind (s table index : String) (cid : Int) : String :=
  "could not find " ++ s ++ table ++ " index " ++ index ++ " column id " ++ toString cid

/-- The ordering loop of `PgIndexColumns` (src/loaders/postgres.go:277-301):
for each ordinal token in turn, parse it as an integer and linear-scan the
unordered columns for the first one with that column id, failing hard on a
malformed token or a missing id. -/
def orderByOrdinal (s table index : String) (cols : List IndexColumn) :
    List (List Char) → Except String (List IndexColumn)
  | [] => .ok []
  | v :: vs =>
    match atoi v with
    | none => .error (errCouldNotConvert s table index (String.mk v))
    | some cid =>
      match cols.find? (fun ic => cid = ic.cid) with
      | none => .error (errCouldNotFind s table index cid)
      | some c =>
        match orderByOrdinal s table index cols vs with
        | .error e => .error e
        | .ok r => .ok (c :: r)

/-- The schema prefix used in the error messages
(src/loaders/postgres.go:271-274). -/
def schemaDot (schema : String) : String :=
  if schema = "" then schema else schema ++ "."

/-- Embeds `PgIndexColumns` (src/loaders/postgres.go:255-304).  The two
catalog fetches are passed in as their successful results: `cols` is the
unordered column listing, `ord` the ordinal string (`colOrd.Ord`); a failure
of either fetch propagates before this logic runs.  The ordinal string is
split on single spaces (Go `strings.Split(colOrd.Ord, " ")`). -/
def PgIndexColumns (schema table index : String) (cols : List IndexColumn)
    (ord : String) : Except String (List IndexColumn) :=
  orderByOrdinal (schemaDot schema) table index cols (splitOnChar ' ' ord.toList)

/-- Go `strings.Fields` semantics: the whitespace-separated tokens of a
string, used to state the spec's token-count invariant. -/
def wsFields (l : List Char) : List (List Char) :=
  (splitBy isWS l).filter (fun t => !t.isEmpty)



/-! ## General lemmas about the embedded definitions -/

/-- Unfolding lemma: on a `SETOF `-prefixed character list, `PgParseTypeAux`
takes the set-returning branch. -/
theorem pgParseTypeAux_setof (rest : List Char) (b : Bool) :
    PgParseTypeAux ('S' :: 'E' :: 'T' :: 'O' :: 'F' :: ' ' :: rest) b
      = (0, "nil", "[]" ++ (PgParseTypeAux rest false).2.2) := by
  simp [PgParseTypeAux]

/-- Unfolding lemma: without the `SETOF ` marker, `PgParseTypeAux` falls
through to the array/precision/family logic. -/
theorem pgParseTypeAux_not_setof (l : List Char) (b : Bool)
    (h : setofMarker.isPrefixOf l = false) : PgParseTypeAux l b = PgParseTypeCore l b := by
  unfold PgParseTypeAux
  split
  · simp [setofMarker, List.isPrefixOf] at h
  · rfl

/-- The `nullable` argument is never consulted by the translator. -/
theorem pgParseTypeAux_nullable (l : List Char) (b1 b2 : Bool) :
    PgParseTypeAux l b1 = PgParseTypeAux l b2 := by
  cases hb : setofMarker.isPrefixOf l with
  | true =>
    obtain ⟨t, ht⟩ := List.isPrefixOf_iff_prefix.mp hb
    rw [← ht]
    simp only [setofMarker, List.cons_append, List.nil_append]
    rw [pgParseTypeAux_setof, pgParseTypeAux_setof]
  | false =>
    rw [pgParseTypeAux_not_setof _ _ hb, pgParseTypeAux_not_setof _ _ hb]
    rfl

/-- `takeWhile` stops exactly at the first failing character. -/
theorem takeWhile_append_cons (p : Char → Bool) (a : List Char) (x : Char)
    (b : List Char) (ha : ∀ c ∈ a, p c = true) (hx : p x = false) :
    (a ++ x :: b).takeWhile p = a := by
  induction a with
  | nil => simp [List.takeWhile, hx]
  | cons c a ih =>
    have hc : p c = true := ha c (by simp)
    simp only [List.cons_append, List.takeWhile_cons, hc, if_true]
    rw [ih (fun d hd => ha d (by simp [hd]))]

/-- `dropWhile` stops exactly at the first failing character. -/
theorem dropWhile_append_cons (p : Char → Bool) (a : List Char) (x : Char)
    (b : List Char) (ha : ∀ c ∈ a, p c = true) (hx : p x = false) :
    (a ++ x :: b).dropWhile p = x :: b := by
  induction a with
  | nil => simp [List.dropWhile, hx]
  | cons c a ih =>
    have hc : p c = true := ha c (by simp)
    simp only [List.cons_append, List.dropWhile_cons, hc, if_true]
    exact ih (fun d hd => ha d (by simp [hd]))

/-- A list all of whose characters satisfy `p` is its own `takeWhile`. -/
theorem takeWhile_all (p : Char → Bool) (a : List Char)
    (ha : ∀ c ∈ a, p c = true) : a.takeWhile p = a := by
  induction a with
  | nil => rfl
  | cons c a ih =>
    have hc : p c = true := ha c (by simp)
    simp only [List.takeWhile_cons, hc, if_true]
    rw [ih (fun d hd => ha d (by simp [hd]))]

/-- The precision extractor on a well-formed parenthesized qualifier: the
part before the first `(` is the base name and the digit run after the `(`
is the precision. -/
theorem parsePrecision_qualifier (base ds rest : List Char)
    (h1 : '(' ∉ base) (h2 : ds ≠ []) (h3 : ∀ c ∈ ds, c.isDigit = true)
    (h4 : ∀ x, rest.head? = some x → x.isDigit = false) :
    ParsePrecision (base ++ '(' :: (ds ++ rest)) = (base, digitsVal ds) := by
  have hb : ∀ c ∈ base, (c != '(') = true := by
    intro c hc
    simp only [bne_iff_ne, ne_eq]
    intro hcc
    exact h1 (hcc ▸ hc)
  have hpar : (('(' : Char) != '(') = false := by decide
  unfold ParsePrecision
  rw [takeWhile_append_cons _ _ _ _ hb hpar, dropWhile_append_cons _ _ _ _ hb hpar]
  have hds : (ds ++ rest).takeWhile Char.isDigit = ds := by
    cases rest with
    | nil => rw [List.append_nil]; exact takeWhile_all _ _ h3
    | cons x r => exact takeWhile_append_cons _ _ _ _ h3 (h4 x rfl)
  simp only [hds]
  have : ds.isEmpty = false := by
    cases ds with
    | nil => exact absurd rfl h2
    | cons c t => rfl
  simp [this]

/-! ## Claims -/

/-- C2 (confirmed): for every native scalar type string in the fixed family
table, `translate` (`PgParseType`) returns the documented canonical
(zeroValue, typeName) pair for that family, with precision 0 unless a
parenthesized qualifier is present, in which case the precision is the
qualifier's leading integer; in particular `translate("character varying",
false)` yields precision 0 and the text-family pair and
`translate("numeric(10,2)", true)` yields precision 10 and the
double-precision family pair. -/
theorem C2_translate_fixed_family (b : Bool) :
    (PgParseType "boolean" b = (0, "pgtype.Bool\x7b\x7d", "pgtype.Bool") ∧
     PgParseType "character" b = (0, "pgtype.Text\x7b\x7d", "pgtype.Text") ∧
     PgParseType "character varying" b = (0, "pgtype.Text\x7b\x7d", "pgtype.Text") ∧
     PgParseType "text" b = (0, "pgtype.Text\x7b\x7d", "pgtype.Text") ∧
     PgParseType "money" b = (0, "pgtype.Text\x7b\x7d", "pgtype.Text") ∧
     PgParseType "inet" b = (0, "pgtype.Text\x7b\x7d", "pgtype.Text") ∧
     PgParseType "smallint" b = (0, "pgtype.Int2\x7b\x7d", "pgtype.Int2") ∧
     PgParseType "smallserial" b = (0, "pgtype.Int2\x7b\x7d", "pgtype.Int2") ∧
     PgParseType "integer" b = (0, "pgtype.Int4\x7b\x7d", "pgtype.Int4") ∧
     PgParseType "serial" b = (0, "pgtype.Int4\x7b\x7d", "pgtype.Int4") ∧
     PgParseType "bigint" b = (0, "pgtype.Int8\x7b\x7d", "pgtype.Int8") ∧
     PgParseType "bigserial" b = (0, "pgtype.Int8\x7b\x7d", "pgtype.Int8") ∧
     PgParseType "real" b = (0, "pgtype.Float4\x7b\x7d", "pgtype.Float4") ∧
     PgParseType "numeric" b = (0, "pgtype.Float8\x7b\x7d", "pgtype.Float8") ∧
     PgParseType "double precision" b = (0, "pgtype.Float8\x7b\x7d", "pgtype.Float8") ∧
     PgParseType "bytea" b = (0, "pgtype.Bytea\x7b\x7d", "pgtype.Bytea") ∧
     PgParseType "jsonb" b = (0, "pgtype.JSONB\x7b\x7d", "pgtype.JSONB") ∧
     PgParseType "date" b = (0, "pgtype.Date\x7b\x7d", "pgtype.Date") ∧
     PgParseType "timestamp with time zone" b = (0, "pgtype.Timestamp\x7b\x7d", "pgtype.Timestamp") ∧
     PgParseType "time with time zone" b = (0, "pgtype.Timestamp\x7b\x7d", "pgtype.Timestamp") ∧
     PgParseType "time without time zone" b = (0, "pgtype.Timestamptz\x7b\x7d", "pgtype.Timestamptz") ∧
     PgParseType "timestamp without time zone" b = (0, "pgtype.Timestamptz\x7b\x7d", "pgtype.Timestamptz") ∧
     PgParseType "interval" b = (0, "pgtype.Interval\x7b\x7d", "pgtype.Interval") ∧
     PgParseType "\"char\"" b = (0, "pgtype.QChar\x7b\x7d", "pgtype.QChar") ∧
     PgParseType "bit" b = (0, "pgtype.Bit\x7b\x7d", "pgtype.Bit") ∧
     PgParseType "uuid" b = (0, "pgtype.UUID\x7b\x7d", "pgtype.UUID")) ∧
    (PgParseType "numeric(10,2)" b = (10, "pgtype.Float8\x7b\x7d", "pgtype.Float8") ∧
     PgParseType "character varying(64)" b = (64, "pgtype.Text\x7b\x7d", "pgtype.Text") ∧
     PgParseType "bit(8)" b = (8, "pgtype.Bit\x7b\x7d", "pgtype.Bit")) ∧
    (∀ base ds rest : List Char, '(' ∉ base → ds ≠ [] → (∀ c ∈ ds, c.isDigit = true) →
      (∀ x, rest.head? = some x → x.isDigit = false) →
      ParsePrecision (base ++ '(' :: (ds ++ rest)) = (base, digitsVal ds)) := by
  refine ⟨?_, ?_, parsePrecision_qualifier⟩
  · cases b <;> (repeat' apply And.intro) <;> decide
  · cases b <;> (repeat' apply And.intro) <;> decide

/-- Witness for C2: the qualifier clause at the concrete input
`numeric(10,2)` split as base `numeric`, digits `10`, remainder `,2)`. -/
theorem C2_translate_fixed_family_witness :
    ParsePrecision (['n', 'u', 'm', 'e', 'r', 'i', 'c'] ++ '(' :: (['1', '0'] ++ [',', '2', ')']))
      = (['n', 'u', 'm', 'e', 'r', 'i', 'c'], digitsVal ['1', '0']) :=
  (C2_translate_fixed_family false).2.2 ['n', 'u', 'm', 'e', 'r', 'i', 'c'] ['1', '0']
    [',', '2', ')'] (by decide) (by decide) (by decide) (by decide)

/-- C3 (confirmed): for every native type string beginning with the
set-returning marker `"SETOF "` and either nullability flag, `translate`
(`PgParseType`) recurses on the remainder with nullability forced false and
returns precision 0, zero value `"nil"`, and type name `[]` applied to the
inner translation's type name. -/
theorem C3_translate_setof (rest : String) (b : Bool) :
    PgParseType ("SETOF " ++ rest) b = (0, "nil", "[]" ++ (PgParseType rest false).2.2) := by
  unfold PgParseType
  rw [show ("SETOF " ++ rest).toList = 'S' :: 'E' :: 'T' :: 'O' :: 'F' :: ' ' :: rest.toList
      from rfl]
  exact pgParseTypeAux_setof rest.toList b

/-- C5 (confirmed): `translate` (`PgParseType`) maps the native
`timestamp with time zone` and `time with time zone` strings to the
`pgtype.Timestamp` family and maps `timestamp without time zone` and
`time without time zone` to the `pgtype.Timestamptz` family — the
cross-mapping the spec describes as inherited from the source. -/
theorem C5_translate_timezone_crossmap (b : Bool) :
    PgParseType "timestamp with time zone" b
      = (0, "pgtype.Timestamp\x7b\x7d", "pgtype.Timestamp") ∧
    PgParseType "time with time zone" b
      = (0, "pgtype.Timestamp\x7b\x7d", "pgtype.Timestamp") ∧
    PgParseType "timestamp without time zone" b
      = (0, "pgtype.Timestamptz\x7b\x7d", "pgtype.Timestamptz") ∧
    PgParseType "time without time zone" b
      = (0, "pgtype.Timestamptz\x7b\x7d", "pgtype.Timestamptz") := by
  cases b <;> decide

/-- C9 (confirmed): `nativeCode` (`PgRelkind`) returns `"r"` for `Table` and
`"v"` for `View`, and fails fatally (modelled as `none`) on every value of
the integer-backed enum outside the declared {Table, View} domain, so that
under the precondition kind ∈ {Table, View} the fatal branch is
unreachable. -/
theorem C9_pgRelkind_total :
    PgRelkind RelType.Table = some "r" ∧ PgRelkind RelType.View = some "v" ∧
    ∀ k : RelType, k ≠ RelType.Table → k ≠ RelType.View → PgRelkind k = none := by
  refine ⟨rfl, rfl, fun k h1 h2 => ?_⟩
  unfold PgRelkind
  rw [if_neg h1, if_neg h2]

/-- Witness for C9: the fatal branch at the concrete out-of-domain value 7. -/
theorem C9_pgRelkind_total_witness : PgRelkind 7 = none :=
  C9_pgRelkind_total.2.2 7 (by decide) (by decide)

/-- C10 (confirmed): the result of `translate` (`PgParseType`) is independent
of its `nullable` argument — the parameter is never consulted. -/
theorem C10_translate_nullable_independent (dt : String) (b1 b2 : Bool) :
    PgParseType dt b1 = PgParseType dt b2 :=
  pgParseTypeAux_nullable dt.toList b1 b2

/-- Case characterization of the array lookup. -/
theorem sliceDt_eq (s : String) :
    sliceDt s = if s = "uuid" then ("pgtype.UUIDArray\x7b\x7d", "pgtype.UUIDArray")
                else ("[]" ++ s ++ "\x7b\x7d", "[]" ++ s) := by
  unfold sliceDt
  split
  · simp
  · rename_i hne
    rw [if_neg hne]

/-- C4 counterexample: at the explicit input `integer[]` the translator
returns type name `[]integer` — the raw native base name wrapped as a slice —
which is not the sequence-wrapped canonical translation `[]pgtype.Int4` of
the base type that the claim requires. -/
theorem C4_translate_array_counterexample :
    PgParseType "integer[]" false = (0, "[]integer\x7b\x7d", "[]integer") ∧
    (PgParseType "integer[]" false).2.2 ≠ "[]" ++ (nonSliceDt "integer").2 ∧
    (PgParseType "integer[]" false).2.1 ≠ "[]" ++ (nonSliceDt "integer").2 ++ "\x7b\x7d" := by
  refine ⟨by decide, by decide, by decide⟩

/-- C4 (corrected): for every native type string ending with the array marker
`[]` (and not taken by the `SETOF ` branch), `translate` strips the suffix
and: if the precision-stripped base is `uuid`, returns the dedicated
`pgtype.UUIDArray` representation; for every other base it wraps the raw
native base name — not its canonical translation — as a Go slice, with zero
value the corresponding empty slice literal. -/
theorem C4_translate_array_amended (dt : String) (b : Bool)
    (h : setofMarker.isPrefixOf (dt.toList ++ ['[', ']']) = false) :
    PgParseType (dt ++ "[]") b =
      (if String.mk (ParsePrecision dt.toList).1 = "uuid"
       then ((ParsePrecision dt.toList).2, "pgtype.UUIDArray\x7b\x7d", "pgtype.UUIDArray")
       else ((ParsePrecision dt.toList).2,
             "[]" ++ String.mk (ParsePrecision dt.toList).1 ++ "\x7b\x7d",
             "[]" ++ String.mk (ParsePrecision dt.toList).1)) := by
  unfold PgParseType
  rw [show (dt ++ "[]").toList = dt.toList ++ ['[', ']'] from rfl]
  rw [pgParseTypeAux_not_setof _ _ h]
  unfold PgParseTypeCore
  have hsuf : ['[', ']'].isSuffixOf (dt.toList ++ ['[', ']']) = true := by
    simp [List.isSuffixOf]
  have hlen : (dt.toList ++ ['[', ']']).length - 2 = dt.toList.length := by simp
  simp only [hsuf, if_true, hlen, List.take_left, sliceDt_eq]
  split <;> rfl

/-- Witness for C4 (amended): the uuid and non-uuid branches at concrete
inputs `uuid[]` and `integer[]`. -/
theorem C4_translate_array_amended_witness :
    PgParseType ("uuid" ++ "[]") true
      = (if String.mk (ParsePrecision "uuid".toList).1 = "uuid"
         then ((ParsePrecision "uuid".toList).2, "pgtype.UUIDArray\x7b\x7d", "pgtype.UUIDArray")
         else ((ParsePrecision "uuid".toList).2,
               "[]" ++ String.mk (ParsePrecision "uuid".toList).1 ++ "\x7b\x7d",
               "[]" ++ String.mk (ParsePrecision "uuid".toList).1)) :=
  C4_translate_array_amended "uuid" true (by decide)

/-- The manual-primary-key loop of `PgTables` is the negated existence of a
matching sequence. -/
theorem manualPk_foldl (name : String) (b : Bool) (seqs : List Sequence) :
    seqs.foldl (fun manualPk s => if s.tableName = name then false else manualPk) b
      = (b && !(seqs.any (fun s => s.tableName == name))) := by
  induction seqs generalizing b with
  | nil => simp
  | cons s ss ih =>
    simp only [List.foldl_cons, List.any_cons]
    by_cases hs : s.tableName = name
    · rw [if_pos hs, ih]
      have hb : (s.tableName == name) = true := beq_iff_eq.mpr hs
      simp [hb]
    · rw [if_neg hs, ih]
      have hb : (s.tableName == name) = false := beq_eq_false_iff_ne.mpr hs
      simp [hb]

/-- C6 (confirmed): when the raw relation fetch succeeds, `listTables`
(`PgTables`) returns one `Table` per raw row in the raw listing's order, with
`manualPk = true` unless some fetched sequence's table name equals the row's
name; when the sequence fetch fails the call still succeeds with the empty
sequence set, so every table gets `manualPk = true`; a failed relation fetch
fails the call.  The spec's example `{orders, order_items}` with sequence set
`[order_items]` is included. -/
theorem C6_pgTables_manual_pk (rows : List Table) :
    (∀ seqs, PgTables (.ok rows) (.ok seqs)
       = .ok (rows.map (fun row =>
           ⟨row.tableName, row.typ, !(seqs.any (fun s => s.tableName == row.tableName))⟩))) ∧
    (∀ e, PgTables (.ok rows) (.error e)
       = .ok (rows.map (fun row => ⟨row.tableName, row.typ, true⟩))) ∧
    (∀ e seqRes, PgTables (.error e) seqRes = .error e) ∧
    PgTables (.ok [⟨"orders", "r", false⟩, ⟨"order_items", "r", false⟩])
        (.ok [⟨"order_items"⟩])
      = .ok [⟨"orders", "r", true⟩, ⟨"order_items", "r", false⟩] := by
  refine ⟨fun seqs => ?_, fun e => rfl, fun e seqRes => rfl, by decide⟩
  unfold PgTables
  simp only [Except.ok.injEq]
  apply List.map_congr_left
  intro row _
  rw [manualPk_foldl]
  simp

/-- The oracle of a run whose temporary-view statement fails. -/
def qcFailView : QCOracle :=
  ⟨fun _ => .error "boom", fun _ _ => .ok "pg_temp_3", fun _ _ => .ok []⟩

/-- The oracle of a run whose delegated column listing fails with the same
underlying error. -/
def qcFailCols : QCOracle :=
  ⟨fun _ => .ok (), fun _ _ => .ok "pg_temp_3", fun _ _ => .error "boom"⟩

/-- C7 counterexample: the code returns the underlying error unchanged
(`return nil, err`), adding no context, so a view-creation failure and a
column-listing failure with the same underlying database error produce
identical results — the failure does not identify which step failed, against
the claim's "wrapped with enough context to identify which step failed". -/
theorem C7_pgQueryColumns_counterexample :
    PgQueryColumns qcFailView "abc" ["SELECT 1"] = .error "boom" ∧
    PgQueryColumns qcFailCols "abc" ["SELECT 1"] = .error "boom" ∧
    PgQueryColumns qcFailView "abc" ["SELECT 1"]
      = PgQueryColumns qcFailCols "abc" ["SELECT 1"] :=
  ⟨rfl, rfl, rfl⟩

/-- C7 (corrected): `discoverQueryColumns` (`PgQueryColumns`) fails exactly
when one of its three steps fails — the temporary-view statement, the
namespace lookup for the generated relation name, or the delegated column
listing — and in each case the call's failure carries the underlying
database error unchanged (propagated verbatim, with no added context); when
the first two steps succeed it returns the delegated column listing for
(discovered schema, generated relation name). -/
theorem C7_pgQueryColumns_amended (db : QCOracle) (randomID : String)
    (inspect : List String) :
    (∀ e, db.exec (viewqOf (xoidOf randomID) inspect) = .error e →
       PgQueryColumns db randomID inspect = .error e) ∧
    (∀ u e, db.exec (viewqOf (xoidOf randomID) inspect) = .ok u →
       db.queryRowScan nspq (xoidOf randomID) = .error e →
       PgQueryColumns db randomID inspect = .error e) ∧
    (∀ u schema, db.exec (viewqOf (xoidOf randomID) inspect) = .ok u →
       db.queryRowScan nspq (xoidOf randomID) = .ok schema →
       PgQueryColumns db randomID inspect
         = db.pgTableColumns schema (xoidOf randomID)) := by
  refine ⟨fun e he => ?_, fun u e hu he => ?_, fun u schema hu hs => ?_⟩
  · simp only [PgQueryColumns]
    rw [he]
  · simp only [PgQueryColumns]
    rw [hu, he]
  · simp only [PgQueryColumns]
    rw [hu, hs]

/-- Witness for C7 (amended): the success clause at a concrete oracle. -/
theorem C7_pgQueryColumns_amended_witness :
    PgQueryColumns qcFailCols "abc" ["SELECT 1"]
      = qcFailCols.pgTableColumns "pg_temp_3" (xoidOf "abc") :=
  (C7_pgQueryColumns_amended qcFailCols "abc" ["SELECT 1"]).2.2 () "pg_temp_3" rfl rfl

/-- C8 counterexample: `strip` removes only the first match of the pattern in
each line, so on the explicit input line `x::aa AS bb ::cc AS dd` — which
contains two matches — a second application of `strip` to the once-stripped
lines changes the line again and records a nonempty comment, against the
claimed idempotence. -/
theorem C8_strip_counterexample :
    PgQueryStrip ["x::aa AS bb ::cc AS dd"] = (["x ::cc AS dd"], ["::aa AS bb"]) ∧
    PgQueryStrip (PgQueryStrip ["x::aa AS bb ::cc AS dd"]).1 = (["x "], ["::cc AS dd"]) ∧
    (PgQueryStrip (PgQueryStrip ["x::aa AS bb ::cc AS dd"]).1).1
      ≠ (PgQueryStrip ["x::aa AS bb ::cc AS dd"]).1 ∧
    (PgQueryStrip (PgQueryStrip ["x::aa AS bb ::cc AS dd"]).1).2 ≠ [""] := by
  refine ⟨by decide, by decide, by decide, by decide⟩

/-- C8 (corrected): `strip` (`PgQueryStrip`) removes only the first match per
line, so it is idempotent exactly on inputs whose once-stripped lines contain
no further match of the pattern: for every such list of query lines, applying
`strip` a second time changes no line and records an empty comment for every
line. -/
theorem C8_strip_amended (query : List String)
    (h : ∀ l ∈ (PgQueryStrip query).1, findCast l.toList = none) :
    PgQueryStrip (PgQueryStrip query).1
      = ((PgQueryStrip query).1, (PgQueryStrip query).1.map (fun _ => "")) := by
  have hline : ∀ l ∈ (PgQueryStrip query).1,
      stripLine l.toList = (l.toList, []) := by
    intro l hl
    unfold stripLine
    rw [h l hl]
  have h1 : List.map (fun q => String.mk (stripLine q.toList).1) (PgQueryStrip query).1
      = List.map id (PgQueryStrip query).1 :=
    List.map_congr_left (fun l hl => by rw [hline l hl]; rfl)
  have h2 : List.map (fun q => String.mk (stripLine q.toList).2) (PgQueryStrip query).1
      = List.map (fun _ => "") (PgQueryStrip query).1 :=
    List.map_congr_left (fun l hl => by rw [hline l hl])
  rw [List.map_id] at h1
  show (List.map (fun q => String.mk (stripLine q.toList).1) (PgQueryStrip query).1,
        List.map (fun q => String.mk (stripLine q.toList).2) (PgQueryStrip query).1)
      = _
  rw [h1, h2]

/-! ### Lemmas for the index column orderer -/

/-- `splitBy` always returns at least one segment. -/
theorem splitBy_ne_nil (p : Char → Bool) (l : List Char) : splitBy p l ≠ [] := by
  cases l with
  | nil => simp [splitBy]
  | cons c rest =>
    unfold splitBy
    cases hc : p c with
    | true => simp [hc]
    | false =>
      simp only [hc, Bool.false_eq_true, if_false]
      cases h : splitBy p rest with
      | nil => simp
      | cons t ts => simp

/-- Every character of the input is either a separator or a member of one of
the split segments. -/
theorem mem_splitBy (p : Char → Bool) (l : List Char) :
    ∀ c ∈ l, p c = true ∨ ∃ t, t ∈ splitBy p l ∧ c ∈ t := by
  induction l with
  | nil => intro c hc; cases hc
  | cons x rest ih =>
    intro c hc
    rcases List.mem_cons.mp hc with hcx | hcr
    · subst hcx
      cases hx : p c with
      | true => exact Or.inl rfl
      | false =>
        right
        cases hs : splitBy p rest with
        | nil => exact absurd hs (splitBy_ne_nil p rest)
        | cons t ts =>
          refine ⟨c :: t, ?_, by simp⟩
          simp [splitBy, hx, hs]
    · rcases ih c hcr with h | ⟨t, ht, hct⟩
      · exact Or.inl h
      · right
        cases hx : p x with
        | true =>
          refine ⟨t, ?_, hct⟩
          simp only [splitBy, hx, if_true]
          exact List.mem_cons_of_mem _ ht
        | false =>
          cases hs : splitBy p rest with
          | nil => exact absurd hs (splitBy_ne_nil p rest)
          | cons t0 ts =>
            rw [hs] at ht
            rcases List.mem_cons.mp ht with h1 | h2
            · subst h1
              refine ⟨x :: t, ?_, List.mem_cons_of_mem x hct⟩
              simp [splitBy, hx, hs]
            · refine ⟨t, ?_, hct⟩
              simp only [splitBy, hx, Bool.false_eq_true, if_false, hs]
              exact List.mem_cons_of_mem _ h2

/-- `splitBy` only depends on the predicate's values on the input. -/
theorem splitBy_congr (p q : Char → Bool) (l : List Char)
    (h : ∀ c ∈ l, p c = q c) : splitBy p l = splitBy q l := by
  induction l with
  | nil => rfl
  | cons x rest ih =>
    have hx := h x (by simp)
    have hr : ∀ c ∈ rest, p c = q c := fun c hc => h c (by simp [hc])
    unfold splitBy
    rw [hx, ih hr]

/-- A whitespace character is not a digit. -/
theorem ws_not_digit (c : Char) (h : isWS c = true) : c.isDigit = false := by
  unfold isWS at h
  simp only [Bool.or_eq_true, decide_eq_true_eq] at h
  rcases h with ((((h | h) | h) | h) | h) <;> subst h <;> decide

/-- A successfully parsed token is nonempty and consists of digits and sign
characters only. -/
theorem atoi_some_spec (l : List Char) (z : Int) (h : atoi l = some z) :
    l ≠ [] ∧ ∀ c ∈ l, c.isDigit = true ∨ c = '+' ∨ c = '-' := by
  simp only [atoi] at h
  by_cases hsign : l.head? = some '-' ∨ l.head? = some '+'
  · rw [if_pos hsign] at h
    by_cases he : l.tail.isEmpty
    · rw [if_pos he] at h
      exact absurd h (by simp)
    · rw [if_neg he] at h
      by_cases hd : l.tail.all Char.isDigit
      · cases l with
        | nil => simp at hsign
        | cons c0 rest =>
          refine ⟨by simp, ?_⟩
          intro c hc
          rcases List.mem_cons.mp hc with rfl | hcr
          · rcases hsign with hs | hs
            · right; right
              simpa using hs
            · right; left
              simpa using hs
          · left
            exact List.all_eq_true.mp hd c hcr
      · rw [if_neg hd] at h
        exact absurd h (by simp)
  · rw [if_neg hsign] at h
    by_cases he : l.isEmpty
    · rw [if_pos he] at h
      exact absurd h (by simp)
    · rw [if_neg he] at h
      by_cases hd : l.all Char.isDigit
      · refine ⟨?_, fun c hc => Or.inl (List.all_eq_true.mp hd c hc)⟩
        intro hnil
        subst hnil
        exact he rfl
      · rw [if_neg hd] at h
        exact absurd h (by simp)

/-- No character of a successfully parsed token is whitespace. -/
theorem atoi_some_not_ws (l : List Char) (z : Int) (h : atoi l = some z) :
    ∀ c ∈ l, isWS c = false ∧ c ≠ ' ' := by
  intro c hc
  rcases (atoi_some_spec l z h).2 c hc with hd | rfl | rfl
  · constructor
    · cases hw : isWS c with
      | false => rfl
      | true =>
        rw [ws_not_digit c hw] at hd
        exact absurd hd (by simp)
    · intro hc'
      subst hc'
      exact absurd hd (by decide)
  · exact ⟨by decide, by decide⟩
  · exact ⟨by decide, by decide⟩

/-- On inputs all of whose space-split tokens parse as integers, the
whitespace-separated tokens coincide with the space-split tokens. -/
theorem wsFields_eq_splitOnChar (l : List Char)
    (h : ∀ t ∈ splitOnChar ' ' l, ∃ z, atoi t = some z) :
    wsFields l = splitOnChar ' ' l := by
  have hch : ∀ c ∈ l, isWS c = decide (c = ' ') := by
    intro c hc
    rcases mem_splitBy (fun c => decide (c = ' ')) l c hc with hsep | ⟨t, ht, hct⟩
    · have : c = ' ' := of_decide_eq_true hsep
      subst this
      decide
    · obtain ⟨z, hz⟩ := h t ht
      obtain ⟨hw, hs⟩ := atoi_some_not_ws t z hz c hct
      rw [hw, decide_eq_false hs]
  unfold wsFields
  rw [splitBy_congr isWS (fun c => decide (c = ' ')) l hch]
  apply List.filter_eq_self.mpr
  intro t ht
  obtain ⟨z, hz⟩ := h t ht
  have hne : t ≠ [] := (atoi_some_spec t z hz).1
  cases t with
  | nil => exact absurd rfl hne
  | cons a as => rfl

/-- Success behaviour of the ordering loop: one output column per ordinal
token, each drawn from the unordered columns, each with the column id its
token parses to. -/
theorem orderByOrdinal_ok_spec (s table index : String) (cols : List IndexColumn) :
    ∀ ts ret, orderByOrdinal s table index cols ts = .ok ret →
      ret.length = ts.length ∧
      ∀ j (h1 : j < ret.length) (h2 : j < ts.length),
        ret.get ⟨j, h1⟩ ∈ cols ∧
        atoi (ts.get ⟨j, h2⟩) = some (ret.get ⟨j, h1⟩).cid := by
  intro ts
  induction ts with
  | nil =>
    intro ret h
    simp only [orderByOrdinal, Except.ok.injEq] at h
    subst h
    exact ⟨rfl, fun j h1 h2 => absurd h1 (by simp)⟩
  | cons v vs ih =>
    intro ret h
    cases hv : atoi v with
    | none => simp [orderByOrdinal, hv] at h
    | some cid =>
      cases hf : cols.find? (fun ic => cid = ic.cid) with
      | none => simp [orderByOrdinal, hv, hf] at h
      | some c =>
        cases hr : orderByOrdinal s table index cols vs with
        | error e => simp [orderByOrdinal, hv, hf, hr] at h
        | ok r =>
          simp only [orderByOrdinal, hv, hf, hr, Except.ok.injEq] at h
          subst h
          obtain ⟨hlen, hpt⟩ := ih r hr
          refine ⟨by simp [hlen], ?_⟩
          intro j h1 h2
          cases j with
          | zero =>
            refine ⟨List.mem_of_find?_eq_some hf, ?_⟩
            have hp := List.find?_some hf
            have hcc : cid = c.cid := by simpa using hp
            show atoi v = some c.cid
            rw [hv, hcc]
          | succ j =>
            have h1' : j < r.length := by simpa using h1
            have h2' : j < vs.length := by simpa using h2
            exact hpt j h1' h2'

/-- Failure behaviour of the ordering loop: the error is always one of the
two context-carrying messages. -/
theorem orderByOrdinal_error_spec (s table index : String) (cols : List IndexColumn) :
    ∀ ts e, orderByOrdinal s table index cols ts = .error e →
      (∃ v, e = errCouldNotConvert s table index (String.mk v)) ∨
      (∃ cid, e = errCouldNotFind s table index cid) := by
  intro ts
  induction ts with
  | nil => intro e h; simp [orderByOrdinal] at h
  | cons v vs ih =>
    intro e h
    cases hv : atoi v with
    | none =>
      simp only [orderByOrdinal, hv, Except.error.injEq] at h
      exact Or.inl ⟨v, h.symm⟩
    | some cid =>
      cases hf : cols.find? (fun ic => cid = ic.cid) with
      | none =>
        simp only [orderByOrdinal, hv, hf, Except.error.injEq] at h
        exact Or.inr ⟨cid, h.symm⟩
      | some c =>
        cases hr : orderByOrdinal s table index cols vs with
        | error e2 =>
          simp only [orderByOrdinal, hv, hf, hr, Except.error.injEq] at h
          subst h
          exact ih e2 hr
        | ok r => simp [orderByOrdinal, hv, hf, hr] at h

/-- C1 counterexample: with ordinal string `"1 1"` and a single unordered
column of id 1, the call succeeds and returns that column twice, and the
returned column's id occurs twice — not exactly once — in the parsed ordinal
sequence, against the claim's exactly-once invariant. -/
theorem C1_orderIndexColumns_counterexample :
    PgIndexColumns "" "t" "i" [⟨1, "a"⟩] "1 1" = .ok [⟨1, "a"⟩, ⟨1, "a"⟩] ∧
    ¬ (∀ c ∈ ([⟨1, "a"⟩, ⟨1, "a"⟩] : List IndexColumn),
        ((splitOnChar ' ' ("1 1").toList).filterMap atoi).count c.cid = 1) := by
  refine ⟨by decide, by decide⟩

/-- C1 (corrected): `orderIndexColumns` (`PgIndexColumns`) either succeeds
with an ordered sequence whose length equals the number of
whitespace-separated tokens of the ordinal string, in which the column at
position `j` comes from the unordered fetch and carries the column id the
`j`-th token parses to — and, provided the parsed ordinals are pairwise
distinct, every returned column's id occurs in the ordinal sequence exactly
once — or the whole call fails with an error naming the schema-qualified
table, the index, and the offending value (no partial result).  The spec's
example (`"2 1 3"` over columns a, b, c) is included. -/
theorem C1_orderIndexColumns_amended (schema table index : String)
    (cols : List IndexColumn) (ord : String) :
    (∀ ret, PgIndexColumns schema table index cols ord = .ok ret →
       ret.length = (wsFields ord.toList).length ∧
       (∀ j (h1 : j < ret.length) (h2 : j < (splitOnChar ' ' ord.toList).length),
          ret.get ⟨j, h1⟩ ∈ cols ∧
          atoi ((splitOnChar ' ' ord.toList).get ⟨j, h2⟩) = some (ret.get ⟨j, h1⟩).cid) ∧
       (((splitOnChar ' ' ord.toList).filterMap atoi).Nodup →
          ∀ c ∈ ret, ((splitOnChar ' ' ord.toList).filterMap atoi).count c.cid = 1)) ∧
    (∀ e, PgIndexColumns schema table index cols ord = .error e →
       (∃ v, e = errCouldNotConvert (schemaDot schema) table index (String.mk v)) ∨
       (∃ cid, e = errCouldNotFind (schemaDot schema) table index cid)) ∧
    PgIndexColumns "public" "t" "i" [⟨1, "a"⟩, ⟨2, "b"⟩, ⟨3, "c"⟩] "2 1 3"
      = .ok [⟨2, "b"⟩, ⟨1, "a"⟩, ⟨3, "c"⟩] := by
  refine ⟨?_, ?_, by decide⟩
  · intro ret h
    obtain ⟨hlen, hpt⟩ :=
      orderByOrdinal_ok_spec (schemaDot schema) table index cols
        (splitOnChar ' ' ord.toList) ret h
    have hall : ∀ t ∈ splitOnChar ' ' ord.toList, ∃ z, atoi t = some z := by
      intro t ht
      obtain ⟨n, hn⟩ := List.mem_iff_get.mp ht
      obtain ⟨hc, ha⟩ := hpt n.1 (by rw [hlen]; exact n.2) n.2
      have ha' : atoi t = some (ret.get ⟨n.1, by rw [hlen]; exact n.2⟩).cid := by
        rw [← hn]
        exact ha
      exact ⟨_, ha'⟩
    refine ⟨?_, hpt, ?_⟩
    · rw [wsFields_eq_splitOnChar ord.toList hall]
      exact hlen
    · intro hnod c hcret
      obtain ⟨n, hn⟩ := List.mem_iff_get.mp hcret
      have h2 : n.1 < (splitOnChar ' ' ord.toList).length := by
        rw [← hlen]
        exact n.2
      obtain ⟨_, ha⟩ := hpt n.1 n.2 h2
      have hn' : ret.get ⟨n.1, n.2⟩ = c := hn
      have hmem : c.cid ∈ (splitOnChar ' ' ord.toList).filterMap atoi := by
        apply List.mem_filterMap.mpr
        refine ⟨(splitOnChar ' ' ord.toList).get ⟨n.1, h2⟩, List.get_mem _ _ _, ?_⟩
        rw [ha, hn']
      exact List.count_eq_one_of_mem hnod hmem
  · intro e h
    exact orderByOrdinal_error_spec (schemaDot schema) table index cols
      (splitOnChar ' ' ord.toList) e h

/-- Witness for C1 (amended): the success clause at the spec's example —
three returned columns for the three tokens of `"2 1 3"`. -/
theorem C1_orderIndexColumns_amended_witness :
    ([⟨2, "b"⟩, ⟨1, "a"⟩, ⟨3, "c"⟩] : List IndexColumn).length
      = (wsFields ("2 1 3").toList).length :=
  (((C1_orderIndexColumns_amended "public" "t" "i" [⟨1, "a"⟩, ⟨2, "b"⟩, ⟨3, "c"⟩] "2 1 3").1
    [⟨2, "b"⟩, ⟨1, "a"⟩, ⟨3, "c"⟩]) (by decide)).1

/-- Witness for C8 (amended): a single-match line, once stripped, is a fixed
point of `strip`. -/
theorem C8_strip_amended_witness :
    PgQueryStrip (PgQueryStrip ["SELECT x::aa AS bb"]).1
      = ((PgQueryStrip ["SELECT x::aa AS bb"]).1,
         (PgQueryStrip ["SELECT x::aa AS bb"]).1.map (fun _ => "")) :=
  C8_strip_amended ["SELECT x::aa AS bb"] (by decide)

end Loaders
